import Mathlib

/-!
Verification development for the `expo-onboarding` repository.

The repository renders a single onboarding screen.  Its two pieces of
testable logic are embedded here:

* `Onboarding.parseTextWithLinksFuel` — the link segmenter
  `parseTextWithLinks` from `src/OnboardingView.tsx`.  JavaScript strings
  are modelled as `List Char`; `String.prototype.indexOf` is modelled by
  `Onboarding.strIndexOf` (including its clamping of the `fromIndex`
  argument and its behaviour on an empty search string).  The `while`
  loop that collects the occurrences of one link is modelled with an
  explicit fuel argument, because for an empty `sectionText` the loop in
  the source never terminates; the fuelled function returns `none`
  exactly when the loop has not finished within `fuel` iterations.

* the animation schedule of `OnboardingView` / `Feature` — the delays of
  the `setTimeout` calls registered by the mount effects, together with
  the (absent) cleanup of those timers.
-/

namespace Onboarding

/-- A link spec: the substring to find and the URL it opens
(`{ sectionText, sectionUrl }` in `Onboarding.types.ts`). -/
structure Link where
  sectionText : List Char
  sectionUrl : List Char
  deriving DecidableEq

/-- One output segment of the parser: the tagged union
`{ type: 'text' | 'link'; content; url? }`. -/
inductive Segment where
  | text (content : List Char)
  | link (content : List Char) (url : List Char)
  deriving DecidableEq

/-- The content field of a segment. -/
def Segment.content : Segment → List Char
  | .text c => c
  | .link c _ => c

/-- Whether a segment has `type: 'text'`. -/
def Segment.isText : Segment → Bool
  | .text _ => true
  | .link _ _ => false

/-- An entry of the `linkPositions` array: `{ start, end, text, url }`.
The source field `end` is a Lean keyword and is called `stop` here. -/
structure LinkPos where
  start : Nat
  stop : Nat
  text : List Char
  url : List Char
  deriving DecidableEq

/-- Does `pat` occur in `d` starting at index `k`?  For a pattern that
would run past the end of `d` the truncated `take` has the wrong length,
so this is false, matching JavaScript; the empty pattern matches at
every index. -/
def matchesAt (d pat : List Char) (k : Nat) : Bool :=
  decide ((d.drop k).take pat.length = pat)

/-- `d.indexOf(pat, fromIndex)` of JavaScript: the smallest index `k`
with `min fromIndex d.length ≤ k` at which `pat` occurs, `none` when the
source returns `-1`.  The clamping of `fromIndex` to the string length
is the ECMAScript behaviour (an empty pattern is reported found at
`min fromIndex d.length`, never `-1`). -/
def strIndexOf (d pat : List Char) (fromIndex : Nat) : Option Nat :=
  (List.range (d.length + 1)).find?
    (fun k => decide (min fromIndex d.length ≤ k) && matchesAt d pat k)

/-- The `while (true)` loop of `parseTextWithLinks` that records every
occurrence of one link, resuming at `index + 1` after a match at
`index`.  `fuel` bounds the number of iterations; `none` means the loop
did not finish within `fuel` iterations. -/
def findOccurrences (d : List Char) (link : Link) : Nat → Nat → Option (List LinkPos)
  | _, 0 => none
  | startIndex, fuel + 1 =>
    match strIndexOf d link.sectionText startIndex with
    | none => some []
    | some index =>
      (findOccurrences d link (index + 1) fuel).map
        (fun rest =>
          { start := index, stop := index + link.sectionText.length,
            text := link.sectionText, url := link.sectionUrl } :: rest)

/-- The `for (const link of links)` loop: the concatenation of every
link's occurrence list, in link declaration order. -/
def collectLinkPositions (d : List Char) (fuel : Nat) : List Link → Option (List LinkPos)
  | [] => some []
  | link :: links => do
    let ps ← findOccurrences d link 0 fuel
    let rest ← collectLinkPositions d fuel links
    pure (ps ++ rest)

/-- `linkPositions.sort((a, b) => a.start - b.start)`: a stable sort by
start index, modelled by insertion sort (which is stable in the same
sense as `Array.prototype.sort`). -/
def sortLinkPositions (ps : List LinkPos) : List LinkPos :=
  ps.insertionSort (fun a b => a.start ≤ b.start)

/-- `description.slice(a, b)` for natural indices. -/
def slice (d : List Char) (a b : Nat) : List Char :=
  (d.drop a).take (b - a)

/-- The segment-building loop: walk the sorted positions keeping a
cursor `currentIndex`, emitting the text gap before each link (when
non-empty), the link segment, and finally the remaining text (when
non-empty). -/
def buildSegments (d : List Char) : Nat → List LinkPos → List Segment
  | currentIndex, [] =>
    if currentIndex < d.length then [Segment.text (d.drop currentIndex)] else []
  | currentIndex, linkPos :: rest =>
    (if currentIndex < linkPos.start then
      [Segment.text (slice d currentIndex linkPos.start)]
    else []) ++ Segment.link linkPos.text linkPos.url :: buildSegments d linkPos.stop rest

/-- `parseTextWithLinks(description, links)` with explicit loop fuel:
`some segments` when every occurrence-collecting loop finishes within
`fuel` iterations, `none` otherwise. -/
def parseTextWithLinksFuel (d : List Char) (links : List Link) (fuel : Nat) :
    Option (List Segment) :=
  if links.isEmpty then some [Segment.text d]
  else (collectLinkPositions d fuel links).map
    (fun ps => buildSegments d 0 (sortLinkPositions ps))

/-- `parseTextWithLinks` with the canonical fuel `d.length + 1`, which
is enough for every link whose `sectionText` is non-empty. -/
def parseTextWithLinks (d : List Char) (links : List Link) : Option (List Segment) :=
  parseTextWithLinksFuel d links (d.length + 1)

/-- The call terminates: some amount of fuel lets every loop finish. -/
def parseTerminates (d : List Char) (links : List Link) : Prop :=
  ∃ fuel, (parseTextWithLinksFuel d links fuel).isSome

/-! ## Animation schedule

The `ANIMATION_CONFIG` constants and the `setTimeout` calls registered by
the mount effect of `OnboardingView` and by the `shouldAnimate` effect of
`Feature`. -/

def FADE_IN_DURATION : Nat := 600
def MOVE_UP_DURATION : Nat := 800
def FEATURE_DURATION : Nat := 750
def STAGGER_DELAY : Nat := 420
def BUFFER_DELAY : Nat := 200

/-- An animation value or piece of state a scheduled callback mutates. -/
inductive AnimTarget where
  | iconTitleOpacity
  | iconTitleScale
  | iconTitleTranslateY
  | blurViewOpacity
  | shouldAnimateFeaturesFlag
  | featureOpacity (index : Nat)
  | featureTranslateY (index : Nat)
  deriving DecidableEq

/-- One `setTimeout` registration: its delay and the animation values its
callback mutates when it fires. -/
structure ScheduledTimer where
  delay : Nat
  targets : List AnimTarget
  deriving DecidableEq

/-- `featureAnimationTriggerDelay` from the mount effect. -/
def featureAnimationTriggerDelay : Nat :=
  FADE_IN_DURATION + MOVE_UP_DURATION + BUFFER_DELAY

/-- The three `setTimeout` calls in the mount effect of `OnboardingView`:
the move-up at `FADE_IN_DURATION`, the feature-trigger flag flip at
`featureAnimationTriggerDelay`, and the blur-panel fade at
`featureAnimationTriggerDelay + features.length * STAGGER_DELAY +
BUFFER_DELAY`.  (The two `Animated.timing(...).start()` calls that run
immediately at mount are not timers.) -/
def onboardingMountTimers (featureCount : Nat) : List ScheduledTimer :=
  [ ⟨FADE_IN_DURATION, [AnimTarget.iconTitleTranslateY]⟩,
    ⟨featureAnimationTriggerDelay, [AnimTarget.shouldAnimateFeaturesFlag]⟩,
    ⟨featureAnimationTriggerDelay + featureCount * STAGGER_DELAY + BUFFER_DELAY,
      [AnimTarget.blurViewOpacity]⟩ ]

/-- The timers the mount effect cancels on unmount.  The `useEffect` in
the source returns no cleanup function and never stores the
`setTimeout` ids, so nothing is cancelled. -/
def onboardingMountCleanup (_featureCount : Nat) : List ScheduledTimer := []

/-- `animationDelay={index * ANIMATION_CONFIG.STAGGER_DELAY}` passed to
`Feature`. -/
def animationDelay (index : Nat) : Nat := index * STAGGER_DELAY

/-- The `setTimeout` registered by `Feature`'s effect once
`shouldAnimate` is true (none before that). -/
def featureTimers (index : Nat) (shouldAnimate : Bool) : List ScheduledTimer :=
  if shouldAnimate then
    [⟨animationDelay index,
      [AnimTarget.featureOpacity index, AnimTarget.featureTranslateY index]⟩]
  else []

/-- The timers `Feature`'s effect cancels on unmount: like the mount
effect, it returns no cleanup, so nothing is cancelled. -/
def featureCleanup (_index : Nat) : List ScheduledTimer := []

/-- Time (from mount) at which feature `index` starts its rise/fade: the
flag flips at `featureAnimationTriggerDelay`, then `Feature`'s effect
waits a further `animationDelay index`. -/
def featureStartTime (index : Nat) : Nat :=
  featureAnimationTriggerDelay + animationDelay index

/-- Time (from mount) at which the blur panel's fade starts. -/
def blurStartTime (featureCount : Nat) : Nat :=
  featureAnimationTriggerDelay + featureCount * STAGGER_DELAY + BUFFER_DELAY

/-- The mount-effect timers still pending when the component is
unmounted at `unmountTime`: every registered timer that has not yet
fired and is not cancelled by the (empty) cleanup. -/
def pendingAfterUnmount (featureCount unmountTime : Nat) : List ScheduledTimer :=
  ((onboardingMountTimers featureCount).filter
      (fun t => !((onboardingMountCleanup featureCount).contains t))).filter
    (fun t => decide (unmountTime ≤ t.delay))

/-- The animation values mutated after an unmount at `unmountTime` by
callbacks the mount effect left pending. -/
def lateWriteTargets (featureCount unmountTime : Nat) : List AnimTarget :=
  (pendingAfterUnmount featureCount unmountTime).flatMap (fun t => t.targets)

/-- Does `pat` occur anywhere in `d`?  (Bounded search: a non-empty
pattern can only match at an index `≤ d.length`, and the empty pattern
matches everywhere.) -/
def occursIn (pat d : List Char) : Bool :=
  (List.range (d.length + 1)).any (fun k => matchesAt d pat k)

/-- The sorted `linkPositions` array the parser walks, at the canonical
fuel. -/
def sortedSpans (d : List Char) (links : List Link) : Option (List LinkPos) :=
  (collectLinkPositions d (d.length + 1) links).map sortLinkPositions

/-- The facts true of every entry the parser ever puts into
`linkPositions`: the recorded text is non-empty (a link with empty
`sectionText` makes the loop diverge instead of producing entries), the
span is `[start, start + text.length)`, the description really contains
`text` there, and the span lies inside the description. -/
def validPos (d : List Char) (p : LinkPos) : Prop :=
  p.text ≠ [] ∧ p.stop = p.start + p.text.length ∧
    slice d p.start p.stop = p.text ∧ p.stop ≤ d.length

/-- One link's occurrence list at the canonical fuel (empty when the
loop would diverge). -/
def occurrencesOf (d : List Char) (link : Link) : List LinkPos :=
  (findOccurrences d link 0 (d.length + 1)).getD []

/-- The same span re-tagged with another url: the entry that the second
of two links with identical `sectionText` contributes at that match. -/
def retag (u : List Char) (p : LinkPos) : LinkPos :=
  { start := p.start, stop := p.stop, text := p.text, url := u }

end Onboarding

namespace Onboarding

/-! ## Basic lemmas about the embedded string search -/

theorem matchesAt_bound {d pat : List Char} {k : Nat} (hpat : pat ≠ [])
    (h : matchesAt d pat k = true) : k + pat.length ≤ d.length := by
  have h' := of_decide_eq_true h
  have hlen : ((d.drop k).take pat.length).length = pat.length := by rw [h']
  have hpos : 0 < pat.length := List.length_pos.mpr hpat
  simp only [List.length_take, List.length_drop] at hlen
  omega

theorem matchesAt_slice {d pat : List Char} {k : Nat}
    (h : matchesAt d pat k = true) : slice d k (k + pat.length) = pat := by
  have h' := of_decide_eq_true h
  simpa [slice] using h'

theorem strIndexOf_eq_some {d pat : List Char} {s idx : Nat}
    (h : strIndexOf d pat s = some idx) :
    min s d.length ≤ idx ∧ matchesAt d pat idx = true ∧ idx ≤ d.length := by
  unfold strIndexOf at h
  have hmem := List.mem_of_find?_eq_some h
  have hp := List.find?_some h
  rw [List.mem_range] at hmem
  rw [Bool.and_eq_true] at hp
  exact ⟨of_decide_eq_true hp.1, hp.2, by omega⟩

theorem strIndexOf_empty_pattern_isSome (d : List Char) (s : Nat) :
    (strIndexOf d [] s).isSome := by
  rw [strIndexOf, List.find?_isSome]
  refine ⟨min s d.length, ?_, ?_⟩
  · rw [List.mem_range]; omega
  · simp [matchesAt]

theorem strIndexOf_eq_none_of_not_occurs {d pat : List Char} {s : Nat}
    (h : occursIn pat d = false) : strIndexOf d pat s = none := by
  rw [strIndexOf, List.find?_eq_none]
  intro k _ hk
  rw [Bool.and_eq_true] at hk
  have : occursIn pat d = true := by
    rw [occursIn, List.any_eq_true]
    have hb := @matchesAt_bound d pat k
    by_cases hpat : pat = []
    · exact ⟨0, by rw [List.mem_range]; omega, by simp [hpat, matchesAt]⟩
    · exact ⟨k, by rw [List.mem_range]; have := hb hpat hk.2; omega, hk.2⟩
  rw [h] at this
  exact Bool.false_ne_true this

/-- With an empty `sectionText`, `indexOf` never returns `-1`, so the
occurrence-collecting loop never finishes: for every amount of fuel it
is still running. -/
theorem findOccurrences_empty_text (d u : List Char) :
    ∀ fuel startIndex, findOccurrences d ⟨[], u⟩ startIndex fuel = none := by
  intro fuel
  induction fuel with
  | zero => intro s; rfl
  | succ n ih =>
    intro s
    obtain ⟨idx, hidx⟩ := Option.isSome_iff_exists.mp (strIndexOf_empty_pattern_isSome d s)
    simp [findOccurrences, hidx, ih]

/-- With a non-empty `sectionText` each iteration strictly advances the
resume index, so `d.length - startIndex` bounds the remaining
iterations: the loop finishes within that much fuel. -/
theorem findOccurrences_isSome {d : List Char} {link : Link}
    (hpat : link.sectionText ≠ []) :
    ∀ fuel startIndex, d.length - startIndex < fuel →
      (findOccurrences d link startIndex fuel).isSome := by
  intro fuel
  induction fuel with
  | zero => intro s hs; omega
  | succ n ih =>
    intro s hs
    unfold findOccurrences
    cases h : strIndexOf d link.sectionText s with
    | none => simp
    | some idx =>
      obtain ⟨hmin, hmatch, _⟩ := strIndexOf_eq_some h
      have hbound := matchesAt_bound hpat hmatch
      have hpos : 0 < link.sectionText.length := List.length_pos.mpr hpat
      have hrec : d.length - (idx + 1) < n := by omega
      simpa using ih (idx + 1) hrec

theorem collectLinkPositions_isSome {d : List Char} {links : List Link}
    (h : ∀ l ∈ links, l.sectionText ≠ []) :
    (collectLinkPositions d (d.length + 1) links).isSome := by
  induction links with
  | nil => simp [collectLinkPositions]
  | cons link rest ih =>
    obtain ⟨ps, hps⟩ := Option.isSome_iff_exists.mp
      (findOccurrences_isSome (d := d) (h link (List.mem_cons_self link rest))
        (d.length + 1) 0 (by omega))
    obtain ⟨qs, hqs⟩ := Option.isSome_iff_exists.mp
      (ih (fun l hl => h l (List.mem_cons_of_mem link hl)))
    simp [collectLinkPositions, hps, hqs]

theorem findOccurrences_of_not_occurs {d : List Char} {link : Link}
    (h : occursIn link.sectionText d = false) (fuel s : Nat) :
    findOccurrences d link s (fuel + 1) = some [] := by
  simp [findOccurrences, strIndexOf_eq_none_of_not_occurs h]

theorem not_occursIn_nil {pat : List Char} (h : pat ≠ []) : occursIn pat [] = false := by
  cases pat with
  | nil => exact absurd rfl h
  | cons a l => rfl

theorem collectLinkPositions_nil_description {links : List Link}
    (h : ∀ l ∈ links, l.sectionText ≠ []) :
    collectLinkPositions [] 1 links = some [] := by
  induction links with
  | nil => rfl
  | cons link rest ih =>
    have h1 : findOccurrences [] link 0 1 = some [] :=
      findOccurrences_of_not_occurs (not_occursIn_nil (h link (List.mem_cons_self _ _))) 0 0
    simp [collectLinkPositions, h1, ih (fun l hl => h l (List.mem_cons_of_mem _ hl))]

example : parseTextWithLinks "go go go".toList [⟨"go".toList, "u".toList⟩] =
    some [Segment.link "go".toList "u".toList, Segment.text " ".toList,
          Segment.link "go".toList "u".toList, Segment.text " ".toList,
          Segment.link "go".toList "u".toList] := by decide

example : parseTextWithLinks "".toList [⟨"a".toList, "u".toList⟩] = some [] := by decide

example : parseTextWithLinks "aaa".toList [⟨"aa".toList, "u".toList⟩] =
    some [Segment.link "aa".toList "u".toList, Segment.link "aa".toList "u".toList] := by
  decide

/-! ## Validity of collected link positions -/

theorem findOccurrences_valid {d : List Char} {link : Link}
    (hpat : link.sectionText ≠ []) :
    ∀ {fuel s ps}, findOccurrences d link s fuel = some ps →
      ∀ p ∈ ps, p.text = link.sectionText ∧ p.url = link.sectionUrl ∧
        validPos d p := by
  intro fuel
  induction fuel with
  | zero => intro s ps h; exact absurd h (by simp [findOccurrences])
  | succ n ih =>
    intro s ps h
    rw [findOccurrences] at h
    cases hidx : strIndexOf d link.sectionText s with
    | none =>
      rw [hidx] at h
      cases h
      intro p hp
      exact absurd hp (List.not_mem_nil p)
    | some idx =>
      rw [hidx] at h
      obtain ⟨rest, hrest, hps⟩ := Option.map_eq_some'.mp h
      obtain ⟨-, hmatch, -⟩ := strIndexOf_eq_some hidx
      intro p hp
      rw [← hps] at hp
      rcases List.mem_cons.mp hp with hhead | htail
      · subst hhead
        refine ⟨rfl, rfl, hpat, rfl, ?_, ?_⟩
        · exact matchesAt_slice hmatch
        · exact matchesAt_bound hpat hmatch
      · exact ih hrest p htail

/-- Every recorded occurrence starts at or after the resume index. -/
theorem findOccurrences_start_le {d : List Char} {link : Link}
    (hpat : link.sectionText ≠ []) :
    ∀ {fuel s ps}, findOccurrences d link s fuel = some ps →
      ∀ p ∈ ps, s ≤ p.start := by
  intro fuel
  induction fuel with
  | zero => intro s ps h; exact absurd h (by simp [findOccurrences])
  | succ n ih =>
    intro s ps h
    rw [findOccurrences] at h
    cases hidx : strIndexOf d link.sectionText s with
    | none =>
      rw [hidx] at h
      cases h
      intro p hp
      exact absurd hp (List.not_mem_nil p)
    | some idx =>
      rw [hidx] at h
      obtain ⟨rest, hrest, hps⟩ := Option.map_eq_some'.mp h
      obtain ⟨hmin, hmatch, -⟩ := strIndexOf_eq_some hidx
      have hbound := matchesAt_bound hpat hmatch
      have hpos : 0 < link.sectionText.length := List.length_pos.mpr hpat
      have hs : s ≤ idx := by omega
      intro p hp
      rw [← hps] at hp
      rcases List.mem_cons.mp hp with hhead | htail
      · subst hhead; exact hs
      · have := ih hrest p htail; omega

/-- One link's occurrence list has strictly increasing start indices. -/
theorem findOccurrences_sorted {d : List Char} {link : Link}
    (hpat : link.sectionText ≠ []) :
    ∀ {fuel s ps}, findOccurrences d link s fuel = some ps →
      List.Pairwise (fun a b => a.start < b.start) ps := by
  intro fuel
  induction fuel with
  | zero => intro s ps h; exact absurd h (by simp [findOccurrences])
  | succ n ih =>
    intro s ps h
    rw [findOccurrences] at h
    cases hidx : strIndexOf d link.sectionText s with
    | none => rw [hidx] at h; cases h; exact List.Pairwise.nil
    | some idx =>
      rw [hidx] at h
      obtain ⟨rest, hrest, hps⟩ := Option.map_eq_some'.mp h
      rw [← hps]
      refine List.Pairwise.cons ?_ (ih hrest)
      intro p hp
      have := findOccurrences_start_le hpat hrest p hp
      simp only []
      omega

/-- If the occurrence loop finished for some link, that link's
`sectionText` is non-empty. -/
theorem sectionText_ne_nil_of_findOccurrences {d : List Char} {link : Link}
    {fuel s : Nat} {ps : List LinkPos}
    (h : findOccurrences d link s fuel = some ps) : link.sectionText ≠ [] := by
  intro htext
  cases link with
  | mk t u =>
    rw [show t = [] from htext] at h
    rw [findOccurrences_empty_text d u fuel s] at h
    cases h

theorem collectLinkPositions_valid {d : List Char} {fuel : Nat} :
    ∀ {links : List Link} {ps : List LinkPos},
      collectLinkPositions d fuel links = some ps → ∀ p ∈ ps, validPos d p := by
  intro links
  induction links with
  | nil =>
    intro ps h
    cases h
    intro p hp
    exact absurd hp (List.not_mem_nil p)
  | cons link rest ih =>
    intro ps h
    rw [collectLinkPositions] at h
    cases hocc : findOccurrences d link 0 fuel with
    | none => rw [hocc] at h; cases h
    | some here =>
      rw [hocc] at h
      cases hrest : collectLinkPositions d fuel rest with
      | none => rw [hrest] at h; simp [hocc, hrest] at h
      | some there =>
        rw [hrest] at h
        simp only [hocc, hrest, Option.bind_eq_bind, Option.some_bind] at h
        cases h
        intro p hp
        rcases List.mem_append.mp hp with hin | hin
        · exact (findOccurrences_valid (sectionText_ne_nil_of_findOccurrences hocc)
            hocc p hin).2.2
        · exact ih hrest p hin

/-! ## The segment builder -/

theorem slice_append_drop {d : List Char} {a b : Nat} (h : a ≤ b) :
    slice d a b ++ d.drop b = d.drop a := by
  rw [slice]
  have hd : d.drop b = (d.drop a).drop (b - a) := by
    rw [List.drop_drop]
    congr 1
    omega
  rw [hd, List.take_append_drop]

/-- Walking disjoint, chained spans reconstructs the description from
the cursor on. -/
theorem buildSegments_flatMap_content {d : List Char} :
    ∀ {spans : List LinkPos} {cursor : Nat},
      (∀ p ∈ spans, validPos d p) →
      List.Pairwise (fun a b => a.stop ≤ b.start) spans →
      (∀ p ∈ spans, cursor ≤ p.start) →
      (buildSegments d cursor spans).flatMap Segment.content = d.drop cursor := by
  intro spans
  induction spans with
  | nil =>
    intro cursor _ _ _
    by_cases hc : cursor < d.length
    · simp [buildSegments, hc, Segment.content]
    · rw [buildSegments, if_neg hc]
      have : d.drop cursor = [] := List.drop_eq_nil_of_le (by omega)
      simp [this]
  | cons p rest ih =>
    intro cursor hvalid hchain hcur
    obtain ⟨htext, hstop, hslice, hlen⟩ := hvalid p (List.mem_cons_self p rest)
    have hps : p.start ≤ p.stop := by omega
    have hrec : (buildSegments d p.stop rest).flatMap Segment.content = d.drop p.stop :=
      ih (fun q hq => hvalid q (List.mem_cons_of_mem p hq)) hchain.of_cons
        (fun q hq => List.rel_of_pairwise_cons hchain hq)
    have hcp : cursor ≤ p.start := hcur p (List.mem_cons_self p rest)
    rw [buildSegments]
    by_cases hc : cursor < p.start
    · rw [if_pos hc]
      simp only [List.singleton_append, List.flatMap_cons, Segment.content, hrec]
      rw [← hslice, slice_append_drop hps, slice_append_drop (Nat.le_of_lt hc)]
    · rw [if_neg hc]
      have hceq : cursor = p.start := by omega
      subst hceq
      simp only [List.nil_append, List.flatMap_cons, Segment.content, hrec]
      rw [← hslice, slice_append_drop hps]

/-! ## The stable sort of the position list -/

instance : IsTotal LinkPos (fun a b => a.start ≤ b.start) :=
  ⟨fun a b => Nat.le_total a.start b.start⟩

instance : IsTrans LinkPos (fun a b => a.start ≤ b.start) :=
  ⟨fun _ _ _ h1 h2 => Nat.le_trans h1 h2⟩

instance : IsAntisymm LinkPos (fun a b => a.start < b.start) :=
  ⟨fun _ _ h1 h2 => absurd (Nat.lt_trans h1 h2) (Nat.lt_irrefl _)⟩

theorem sortLinkPositions_sorted (ps : List LinkPos) :
    List.Pairwise (fun a b => a.start ≤ b.start) (sortLinkPositions ps) :=
  List.sorted_insertionSort _ ps

/-- With pairwise distinct start indices the sorted list is strictly
increasing. -/
theorem sortLinkPositions_sorted_lt {ps : List LinkPos}
    (hne : List.Pairwise (fun a b => a.start ≠ b.start) ps) :
    List.Pairwise (fun a b => a.start < b.start) (sortLinkPositions ps) := by
  have hle := sortLinkPositions_sorted ps
  have hne' : List.Pairwise (fun a b => a.start ≠ b.start) (sortLinkPositions ps) :=
    ((List.perm_insertionSort _ ps).pairwise_iff (fun {a b} hab => hab.symm)).mpr hne
  exact (hle.and hne').imp (fun h => Nat.lt_of_le_of_ne h.1 h.2)

/-- Sorting a concatenation of two position lists with pairwise
distinct start indices is independent of which list comes first: both
results are the unique strictly-increasing reordering. -/
theorem sortLinkPositions_append_comm {o1 o2 : List LinkPos}
    (hs1 : List.Pairwise (fun a b => a.start < b.start) o1)
    (hs2 : List.Pairwise (fun a b => a.start < b.start) o2)
    (hne : ∀ p ∈ o1, ∀ q ∈ o2, p.start ≠ q.start) :
    sortLinkPositions (o1 ++ o2) = sortLinkPositions (o2 ++ o1) := by
  have hlt : ∀ a b : LinkPos, a.start < b.start → a.start ≠ b.start :=
    fun a b h => Nat.ne_of_lt h
  have hne12 : List.Pairwise (fun a b => a.start ≠ b.start) (o1 ++ o2) :=
    List.pairwise_append.mpr
      ⟨hs1.imp (fun {a b} h => hlt a b h), hs2.imp (fun {a b} h => hlt a b h), hne⟩
  have hne21 : List.Pairwise (fun a b => a.start ≠ b.start) (o2 ++ o1) :=
    (List.perm_append_comm.pairwise_iff (fun {a b} hab => hab.symm)).mp hne12
  refine List.eq_of_perm_of_sorted (r := fun a b : LinkPos => a.start < b.start)
    ?_ (sortLinkPositions_sorted_lt hne12) (sortLinkPositions_sorted_lt hne21)
  exact ((List.perm_insertionSort _ (o1 ++ o2)).trans List.perm_append_comm).trans
    (List.perm_insertionSort _ (o2 ++ o1)).symm

theorem collectLinkPositions_pair {d : List Char} {l1 l2 : Link} {o1 o2 : List LinkPos}
    {fuel : Nat}
    (h1 : findOccurrences d l1 0 fuel = some o1)
    (h2 : findOccurrences d l2 0 fuel = some o2) :
    collectLinkPositions d fuel [l1, l2] = some (o1 ++ o2) := by
  simp [collectLinkPositions, h1, h2]

/-- The occurrence loop only reads `sectionText`: changing the url of
the link re-tags every recorded position and nothing else. -/
theorem findOccurrences_retag (d t u v : List Char) :
    ∀ fuel s, findOccurrences d ⟨t, u⟩ s fuel =
      (findOccurrences d ⟨t, v⟩ s fuel).map (List.map (retag u)) := by
  intro fuel
  induction fuel with
  | zero => intro s; rfl
  | succ n ih =>
    intro s
    cases hidx : strIndexOf d t s with
    | none => simp [findOccurrences, hidx]
    | some idx =>
      simp only [findOccurrences, hidx]
      rw [ih (idx + 1)]
      cases hrec : findOccurrences d ⟨t, v⟩ (idx + 1) n with
      | none => rfl
      | some rest => simp [retag]

theorem occurrencesOf_retag (d t u v : List Char) :
    occurrencesOf d ⟨t, v⟩ = (occurrencesOf d ⟨t, u⟩).map (retag v) := by
  rw [occurrencesOf, occurrencesOf, findOccurrences_retag d t v u]
  cases findOccurrences d ⟨t, u⟩ 0 (d.length + 1) with
  | none => rfl
  | some o => rfl

/-- Inserting an element after a block of strictly smaller keys leaves
the block in place. -/
theorem orderedInsert_append_right {a : LinkPos} :
    ∀ {xs ys : List LinkPos}, (∀ x ∈ xs, x.start < a.start) →
      List.orderedInsert (fun p q => p.start ≤ q.start) a (xs ++ ys) =
        xs ++ List.orderedInsert (fun p q => p.start ≤ q.start) a ys := by
  intro xs
  induction xs with
  | nil => intro ys _; rfl
  | cons x xs ih =>
    intro ys hlt
    have hx := hlt x (List.mem_cons_self x xs)
    rw [List.cons_append, List.orderedInsert, if_neg (by omega), List.cons_append,
      ih (fun q hq => hlt q (List.mem_cons_of_mem x hq))]

/-- Stability of the sort on a duplicated position list: sorting the
original occurrences followed by the same occurrences re-tagged with a
second url pairs each occurrence with its re-tagged copy, keeping the
originals (the first-declared link) first. -/
theorem insertionSort_interleave (u : List Char) :
    ∀ (os1 pre : List LinkPos),
      List.Pairwise (fun a b => a.start < b.start) (pre ++ os1) →
      List.insertionSort (fun p q => p.start ≤ q.start)
        (os1 ++ (pre ++ os1).map (retag u)) =
      pre.map (retag u) ++ os1.flatMap (fun p => [p, retag u p]) := by
  intro os1
  induction os1 with
  | nil =>
    intro pre hpre
    rw [List.append_nil, List.nil_append, List.flatMap_nil, List.append_nil]
    apply List.Sorted.insertionSort_eq
    rw [List.Sorted, List.pairwise_map]
    rw [List.append_nil] at hpre
    exact hpre.imp (fun {a b} h => Nat.le_of_lt h)
  | cons p os ih =>
    intro pre hpre
    have hre : pre ++ p :: os = (pre ++ [p]) ++ os := by simp
    rw [List.cons_append, List.insertionSort, hre,
      ih (pre ++ [p]) (by rw [← hre]; exact hpre)]
    rw [List.map_append, List.map_singleton, List.append_assoc, List.singleton_append]
    have hpresmall : ∀ x ∈ pre.map (retag u), x.start < p.start := by
      intro x hx
      obtain ⟨q, hq, rfl⟩ := List.mem_map.mp hx
      exact (List.pairwise_append.mp hpre).2.2 q hq p (List.mem_cons_self p os)
    rw [orderedInsert_append_right hpresmall,
      @List.orderedInsert_of_le LinkPos (fun a b => a.start ≤ b.start) _ p (retag u p) _
        (Nat.le_refl p.start)]
    simp [List.flatMap_cons]

/-! ## Completeness of the occurrence loop and stability of the sort -/

/-- `find?` on a strictly increasing list of naturals returns the first
hit: everything smaller fails the predicate. -/
theorem find?_eq_false_of_lt {p : Nat → Bool} :
    ∀ {l : List Nat} {a : Nat}, l.find? p = some a →
      List.Pairwise (fun x y => x < y) l → ∀ j ∈ l, j < a → p j = false := by
  intro l
  induction l with
  | nil => intro a h; cases h
  | cons x t ih =>
    intro a hfind hpair j hj hlt
    cases hx : p x with
    | true =>
      rw [List.find?_cons_of_pos _ hx] at hfind
      injection hfind with hxa
      subst hxa
      rcases List.mem_cons.mp hj with rfl | hjt
      · exact absurd hlt (Nat.lt_irrefl j)
      · exact absurd (List.rel_of_pairwise_cons hpair hjt) (by omega)
    | false =>
      rw [List.find?_cons_of_neg _ (by simp [hx])] at hfind
      rcases List.mem_cons.mp hj with rfl | hjt
      · exact hx
      · exact ih hfind hpair.of_cons j hjt hlt

/-- `indexOf` returns the first match at or after the (clamped) resume
index. -/
theorem strIndexOf_min {d pat : List Char} {s idx : Nat}
    (h : strIndexOf d pat s = some idx) :
    ∀ j, min s d.length ≤ j → j < idx → matchesAt d pat j = false := by
  intro j hj hlt
  rw [strIndexOf] at h
  have hidxle : idx ≤ d.length := by
    have := List.mem_of_find?_eq_some h
    rw [List.mem_range] at this
    omega
  have hjmem : j ∈ List.range (d.length + 1) := by rw [List.mem_range]; omega
  have hfalse := find?_eq_false_of_lt h (List.pairwise_lt_range _) j hjmem hlt
  rw [decide_eq_true hj, Bool.true_and] at hfalse
  exact hfalse

/-- Completeness: the occurrence loop records every match at or after
its resume index. -/
theorem findOccurrences_complete {d : List Char} {link : Link}
    (hpat : link.sectionText ≠ []) :
    ∀ {fuel s ps}, findOccurrences d link s fuel = some ps →
      ∀ k, s ≤ k → matchesAt d link.sectionText k = true →
        (⟨k, k + link.sectionText.length, link.sectionText, link.sectionUrl⟩ :
          LinkPos) ∈ ps := by
  intro fuel
  induction fuel with
  | zero => intro s ps h; exact absurd h (by simp [findOccurrences])
  | succ n ih =>
    intro s ps h k hk hmatch
    rw [findOccurrences] at h
    cases hidx : strIndexOf d link.sectionText s with
    | none =>
      exfalso
      rw [strIndexOf, List.find?_eq_none] at hidx
      have hkmem : k ∈ List.range (d.length + 1) := by
        rw [List.mem_range]
        have := matchesAt_bound hpat hmatch
        omega
      have := hidx k hkmem
      rw [Bool.and_eq_true] at this
      exact this ⟨decide_eq_true (by omega), hmatch⟩
    | some idx =>
      rw [hidx] at h
      obtain ⟨rest, hrest, hps⟩ := Option.map_eq_some'.mp h
      obtain ⟨hmin, -, -⟩ := strIndexOf_eq_some hidx
      rw [← hps]
      rcases Nat.lt_trichotomy k idx with hlt | heq | hgt
      · exfalso
        have := strIndexOf_min hidx k (by omega) hlt
        rw [hmatch] at this
        cases this
      · subst heq
        exact List.mem_cons_self _ _
      · exact List.mem_cons_of_mem _ (ih hrest k (by omega) hmatch)

/-- Stability of `orderedInsert` seen through the elements at one start
index: inserting an element keeps the block at its own key in front of
the earlier equal-key elements and leaves every other key's block
unchanged. -/
theorem filter_start_orderedInsert (s : Nat) (a : LinkPos) :
    ∀ l : List LinkPos,
      (List.orderedInsert (fun p q => p.start ≤ q.start) a l).filter
          (fun x => decide (x.start = s)) =
        if a.start = s then a :: l.filter (fun x => decide (x.start = s))
        else l.filter (fun x => decide (x.start = s)) := by
  intro l
  induction l with
  | nil =>
    rw [List.orderedInsert, List.filter_cons, List.filter_nil]
    by_cases ha : a.start = s
    · rw [if_pos (decide_eq_true ha), if_pos ha]
    · rw [if_neg (by simp [ha]), if_neg ha]
  | cons b t ih =>
    rw [List.orderedInsert]
    by_cases hr : a.start ≤ b.start
    · rw [if_pos hr, List.filter_cons, List.filter_cons]
      by_cases ha : a.start = s <;> by_cases hb : b.start = s <;>
        simp [ha, hb, List.filter_cons]
    · rw [if_neg hr, List.filter_cons, ih, List.filter_cons]
      by_cases ha : a.start = s
      · by_cases hb : b.start = s
        · exact absurd (show a.start ≤ b.start by omega) hr
        · simp [ha, hb]
      · by_cases hb : b.start = s <;> simp [ha, hb]

/-- Stability of the sort seen through the elements at one start index:
sorting preserves their relative order. -/
theorem filter_start_insertionSort (s : Nat) :
    ∀ l : List LinkPos,
      (List.insertionSort (fun p q => p.start ≤ q.start) l).filter
          (fun x => decide (x.start = s)) =
        l.filter (fun x => decide (x.start = s)) := by
  intro l
  induction l with
  | nil => rfl
  | cons a t ih =>
    rw [List.insertionSort, filter_start_orderedInsert s a, ih, List.filter_cons]
    by_cases ha : a.start = s <;> simp [ha]

/-- In a list with strictly increasing starts, an element is the only
one at its start index. -/
theorem filter_start_eq_singleton :
    ∀ {l : List LinkPos} {p : LinkPos}, p ∈ l →
      List.Pairwise (fun a b => a.start < b.start) l →
      l.filter (fun x => decide (x.start = p.start)) = [p] := by
  intro l
  induction l with
  | nil => intro p hmem; cases hmem
  | cons a t ih =>
    intro p hmem hsorted
    rcases List.mem_cons.mp hmem with rfl | hpt
    · rw [List.filter_cons, if_pos (decide_eq_true rfl)]
      have ht : t.filter (fun x => decide (x.start = p.start)) = [] := by
        rw [List.filter_eq_nil_iff]
        intro x hx
        have hlt := List.rel_of_pairwise_cons hsorted hx
        simp only [decide_eq_true_eq]
        omega
      rw [ht]
    · have ha : ¬ a.start = p.start := by
        have := List.rel_of_pairwise_cons hsorted hpt
        omega
      rw [List.filter_cons, if_neg (by simp [ha])]
      exact ih hpt hsorted.of_cons

/-- In a list sorted by start whose elements at start index `s` are
exactly `[p1, p2]`, those two elements are adjacent, `p1` first. -/
theorem sorted_filter_pair_adjacent {s : Nat} :
    ∀ {L : List LinkPos} {p1 p2 : LinkPos},
      List.Pairwise (fun a b => a.start ≤ b.start) L →
      L.filter (fun x => decide (x.start = s)) = [p1, p2] →
      ∃ A B, L = A ++ p1 :: p2 :: B := by
  intro L
  induction L with
  | nil =>
    intro p1 p2 _ hf
    exact absurd hf (by simp)
  | cons a t ih =>
    intro p1 p2 hsorted hf
    rw [List.filter_cons] at hf
    by_cases ha : a.start = s
    · rw [if_pos (decide_eq_true ha)] at hf
      injection hf with h1 hft
      subst h1
      cases t with
      | nil => exact absurd hft (by simp)
      | cons b t2 =>
        rw [List.filter_cons] at hft
        by_cases hb : b.start = s
        · rw [if_pos (decide_eq_true hb)] at hft
          injection hft with h2 h3
          subst h2
          exact ⟨[], t2, rfl⟩
        · exfalso
          rw [if_neg (by simp [hb])] at hft
          have hp2f : p2 ∈ t2.filter (fun x => decide (x.start = s)) := by
            rw [hft]
            exact List.mem_cons_self _ _
          have hp2 : p2 ∈ t2 := List.mem_of_mem_filter hp2f
          have hp2s : p2.start = s := by
            have := List.of_mem_filter hp2f
            simpa using this
          have hab : a.start ≤ b.start :=
            List.rel_of_pairwise_cons hsorted (List.mem_cons_self b t2)
          have hbp2 : b.start ≤ p2.start :=
            List.rel_of_pairwise_cons hsorted.of_cons hp2
          omega
    · rw [if_neg (by simp [ha])] at hf
      obtain ⟨A, B, hAB⟩ := ih hsorted.of_cons hf
      exact ⟨a :: A, B, by rw [List.cons_append, hAB]⟩

/-- Walking a span list splits over a prefix: the segments of the
prefix followed by the segments of the suffix from some cursor. -/
theorem buildSegments_append (d : List Char) :
    ∀ (A rest : List LinkPos) (cursor : Nat),
      ∃ C cur, buildSegments d cursor (A ++ rest) = C ++ buildSegments d cur rest := by
  intro A
  induction A with
  | nil => intro rest cursor; exact ⟨[], cursor, rfl⟩
  | cons a A ih =>
    intro rest cursor
    obtain ⟨C, cur, hC⟩ := ih rest a.stop
    refine ⟨(if cursor < a.start then [Segment.text (slice d cursor a.start)] else []) ++
      Segment.link a.text a.url :: C, cur, ?_⟩
    rw [List.cons_append, buildSegments, hC]
    simp [List.append_assoc]

/-- Two consecutive spans where the second starts at or before the
first one's end produce adjacent link segments: the zero-length (or
negative) gap emits no text segment in between. -/
theorem buildSegments_cons_cons (d : List Char) (cursor : Nat) (p q : LinkPos)
    (rest : List LinkPos) (h : ¬ p.stop < q.start) :
    buildSegments d cursor (p :: q :: rest) =
      (if cursor < p.start then [Segment.text (slice d cursor p.start)] else []) ++
        Segment.link p.text p.url :: Segment.link q.text q.url ::
          buildSegments d q.stop rest := by
  rw [buildSegments, buildSegments, if_neg h, List.nil_append]

/-- The builder never emits an empty text segment: the gap before a
span is emitted only when the cursor is strictly before the span's
start, and the trailing text only when the cursor is strictly before
the end of the description. -/
theorem buildSegments_no_empty_text {d : List Char} :
    ∀ {spans : List LinkPos} {cursor : Nat},
      (∀ p ∈ spans, p.start < d.length) →
      ∀ seg ∈ buildSegments d cursor spans, seg.isText = true → seg.content ≠ [] := by
  intro spans
  induction spans with
  | nil =>
    intro cursor _ seg hseg
    by_cases hc : cursor < d.length
    · rw [buildSegments, if_pos hc] at hseg
      rcases List.mem_singleton.mp hseg with rfl
      intro _ hcon
      rw [Segment.content] at hcon
      have hlen := congrArg List.length hcon
      simp only [List.length_drop, List.length_nil] at hlen
      omega
    · rw [buildSegments, if_neg hc] at hseg
      exact absurd hseg (List.not_mem_nil seg)
  | cons p rest ih =>
    intro cursor hlt seg hseg
    rw [buildSegments] at hseg
    rcases List.mem_append.mp hseg with hin | hin
    · by_cases hc : cursor < p.start
      · rw [if_pos hc] at hin
        rcases List.mem_singleton.mp hin with rfl
        intro _ hcon
        have hps : p.start < d.length := hlt p (List.mem_cons_self p rest)
        rw [Segment.content, slice] at hcon
        have hlen := congrArg List.length hcon
        simp only [List.length_take, List.length_drop, List.length_nil] at hlen
        omega
      · rw [if_neg hc] at hin
        exact absurd hin (List.not_mem_nil seg)
    · rcases List.mem_cons.mp hin with rfl | hin2
      · intro hT
        cases hT
      · exact ih (fun q hq => hlt q (List.mem_cons_of_mem p hq)) seg hin2

/-! ## Claim theorems -/

/-- C3 (counterexample): concatenating the segment contents does not
always reproduce the description.  For `"aaa"` with the single link
`{"aa", u}` the two overlapping matches at 0 and 1 are both emitted, so
the concatenation is `"aaaa"`. -/
theorem parse_concat_counterexample :
    parseTextWithLinks "aaa".toList [⟨"aa".toList, "u".toList⟩] =
      some [Segment.link "aa".toList "u".toList, Segment.link "aa".toList "u".toList] ∧
    ([Segment.link "aa".toList "u".toList, Segment.link "aa".toList "u".toList] :
        List Segment).flatMap Segment.content ≠ "aaa".toList := by
  decide

/-- C3 (amended): whenever the collected spans, sorted by start index,
are non-overlapping (each span ends at or before the next begins),
concatenating the content fields of all returned segments, in output
order, reproduces the description exactly. -/
theorem parse_concat_eq_description (d : List Char) (links : List Link)
    (spans : List LinkPos) (segs : List Segment)
    (hspans : sortedSpans d links = some spans)
    (hdisj : List.Pairwise (fun a b => a.stop ≤ b.start) spans)
    (hsegs : parseTextWithLinks d links = some segs) :
    segs.flatMap Segment.content = d := by
  cases links with
  | nil =>
    rw [parseTextWithLinks, parseTextWithLinksFuel] at hsegs
    simp only [List.isEmpty_nil, if_true, Option.some.injEq] at hsegs
    rw [← hsegs]
    simp [Segment.content]
  | cons l ls =>
    rw [parseTextWithLinks, parseTextWithLinksFuel,
      if_neg (by simp)] at hsegs
    obtain ⟨ps, hps, hbuild⟩ := Option.map_eq_some'.mp hsegs
    rw [sortedSpans, hps, Option.map_some'] at hspans
    have hvalid := collectLinkPositions_valid hps
    rw [Option.some.injEq] at hspans
    rw [← hbuild, hspans]
    have hall : ∀ p ∈ spans, validPos d p := by
      intro p hp
      rw [← hspans, sortLinkPositions] at hp
      exact hvalid p ((List.mem_insertionSort _).mp hp)
    have := @buildSegments_flatMap_content d spans 0 hall hdisj
      (fun p _ => Nat.zero_le p.start)
    rw [List.drop_zero] at this
    exact this

/-- Witness for the amended C3 at a concrete input. -/
theorem parse_concat_eq_description_witness :
    sortedSpans "xay".toList [⟨"a".toList, "u".toList⟩] =
      some [⟨1, 2, "a".toList, "u".toList⟩] ∧
    ([Segment.text "x".toList, Segment.link "a".toList "u".toList,
      Segment.text "y".toList] : List Segment).flatMap Segment.content = "xay".toList :=
  ⟨by decide,
    parse_concat_eq_description "xay".toList [⟨"a".toList, "u".toList⟩]
      [⟨1, 2, "a".toList, "u".toList⟩]
      [Segment.text "x".toList, Segment.link "a".toList "u".toList,
        Segment.text "y".toList]
      (by decide) (List.pairwise_singleton _ _) (by decide)⟩

/-- C9: for a non-empty description and a non-empty link list, no text
segment in the output has empty content: zero-length gaps between
consecutive matches and the zero-length trailing gap are omitted, not
emitted as empty text segments. -/
theorem parse_no_empty_text (d : List Char) (links : List Link) (segs : List Segment)
    (hd : d ≠ []) (hlinks : links ≠ [])
    (hsegs : parseTextWithLinks d links = some segs) :
    ∀ seg ∈ segs, seg.isText = true → seg.content ≠ [] := by
  cases links with
  | nil => exact absurd rfl hlinks
  | cons l ls =>
    rw [parseTextWithLinks, parseTextWithLinksFuel,
      if_neg (by simp)] at hsegs
    obtain ⟨ps, hps, hbuild⟩ := Option.map_eq_some'.mp hsegs
    have hvalid := collectLinkPositions_valid hps
    rw [← hbuild]
    apply buildSegments_no_empty_text
    intro p hp
    rw [sortLinkPositions] at hp
    obtain ⟨ht, hstop, -, hlen⟩ := hvalid p ((List.mem_insertionSort _).mp hp)
    have : 0 < p.text.length := List.length_pos.mpr ht
    omega

/-- C6: for two links with non-empty texts whose occurrences in the
description are disjoint and non-overlapping, the output of
`parseTextWithLinks` is the same for both declaration orders, and the
span list it walks is sorted by start position in the description (not
by declaration order).  (A link with empty `sectionText` is excluded:
it makes the call diverge, see C1.) -/
theorem parse_declaration_order_independent (d : List Char) (l1 l2 : Link)
    (h1 : l1.sectionText ≠ []) (h2 : l2.sectionText ≠ [])
    (hdisj : ∀ p ∈ occurrencesOf d l1, ∀ q ∈ occurrencesOf d l2,
      p.stop ≤ q.start ∨ q.stop ≤ p.start) :
    parseTextWithLinks d [l1, l2] = parseTextWithLinks d [l2, l1] ∧
    List.Pairwise (fun a b => a.start ≤ b.start) ((sortedSpans d [l1, l2]).getD []) := by
  obtain ⟨o1, ho1⟩ := Option.isSome_iff_exists.mp
    (findOccurrences_isSome (d := d) h1 (d.length + 1) 0 (by omega))
  obtain ⟨o2, ho2⟩ := Option.isSome_iff_exists.mp
    (findOccurrences_isSome (d := d) h2 (d.length + 1) 0 (by omega))
  have hocc1 : occurrencesOf d l1 = o1 := by rw [occurrencesOf, ho1]; rfl
  have hocc2 : occurrencesOf d l2 = o2 := by rw [occurrencesOf, ho2]; rfl
  rw [hocc1] at hdisj
  rw [hocc2] at hdisj
  have hsort : sortLinkPositions (o1 ++ o2) = sortLinkPositions (o2 ++ o1) := by
    refine sortLinkPositions_append_comm (findOccurrences_sorted h1 ho1)
      (findOccurrences_sorted h2 ho2) ?_
    intro p hp q hq
    obtain ⟨-, -, hvp⟩ := findOccurrences_valid h1 ho1 p hp
    obtain ⟨-, -, hvq⟩ := findOccurrences_valid h2 ho2 q hq
    obtain ⟨htp, hsp, -, -⟩ := hvp
    obtain ⟨htq, hsq, -, -⟩ := hvq
    have hpp : 0 < p.text.length := List.length_pos.mpr htp
    have hqq : 0 < q.text.length := List.length_pos.mpr htq
    rcases hdisj p hp q hq with hle | hle <;> omega
  constructor
  · rw [parseTextWithLinks, parseTextWithLinks, parseTextWithLinksFuel,
      parseTextWithLinksFuel, if_neg (by simp), if_neg (by simp),
      collectLinkPositions_pair ho1 ho2, collectLinkPositions_pair ho2 ho1]
    rw [Option.map_some', Option.map_some', hsort]
  · rw [sortedSpans, collectLinkPositions_pair ho1 ho2, Option.map_some']
    exact sortLinkPositions_sorted (o1 ++ o2)

/-- Witness for C6 at a concrete input (the two occurrences are
disjoint; with the declaration order swapped the output is
identical). -/
theorem parse_declaration_order_independent_witness :
    parseTextWithLinks "ab".toList
        [⟨"a".toList, "u1".toList⟩, ⟨"b".toList, "u2".toList⟩] =
      parseTextWithLinks "ab".toList
        [⟨"b".toList, "u2".toList⟩, ⟨"a".toList, "u1".toList⟩] ∧
    List.Pairwise (fun a b => a.start ≤ b.start)
      ((sortedSpans "ab".toList
        [⟨"a".toList, "u1".toList⟩, ⟨"b".toList, "u2".toList⟩]).getD []) :=
  parse_declaration_order_independent "ab".toList
    ⟨"a".toList, "u1".toList⟩ ⟨"b".toList, "u2".toList⟩
    (by decide) (by decide) (by decide)

/-- Supporting instance (identical `sectionText`): every match position
contributes one `linkPositions` entry per link; the whole sorted span
list is the occurrence list with each entry immediately followed by its
re-tagged copy, and the output is the segments built from it.  On the
concrete description `"xay"` this yields, for any two urls, two
adjacent link segments in declaration order, each with its url. -/
theorem parse_duplicate_text_links (d t u1 u2 : List Char) (ht : t ≠ []) :
    sortedSpans d [⟨t, u1⟩, ⟨t, u2⟩] =
      some ((occurrencesOf d ⟨t, u1⟩).flatMap (fun p => [p, retag u2 p])) ∧
    parseTextWithLinks d [⟨t, u1⟩, ⟨t, u2⟩] =
      some (buildSegments d 0
        ((occurrencesOf d ⟨t, u1⟩).flatMap (fun p => [p, retag u2 p]))) ∧
    parseTextWithLinks "xay".toList [⟨"a".toList, u1⟩, ⟨"a".toList, u2⟩] =
      some [Segment.text "x".toList, Segment.link "a".toList u1,
            Segment.link "a".toList u2, Segment.text "y".toList] := by
  obtain ⟨o1, ho1⟩ := Option.isSome_iff_exists.mp
    (@findOccurrences_isSome d ⟨t, u1⟩ ht (d.length + 1) 0 (by omega))
  have ho2 : findOccurrences d ⟨t, u2⟩ 0 (d.length + 1) = some (o1.map (retag u2)) := by
    rw [findOccurrences_retag d t u2 u1 (d.length + 1) 0, ho1, Option.map_some']
  have hocc : occurrencesOf d ⟨t, u1⟩ = o1 := by rw [occurrencesOf, ho1]; rfl
  have hsorted : List.Pairwise (fun a b => a.start < b.start) o1 :=
    findOccurrences_sorted ht ho1
  have hsort := insertionSort_interleave u2 o1 [] (by rw [List.nil_append]; exact hsorted)
  rw [List.nil_append, List.map_nil, List.nil_append] at hsort
  have hcollect := collectLinkPositions_pair ho1 ho2
  refine ⟨?_, ?_, ?_⟩
  · rw [sortedSpans, hcollect, Option.map_some', hocc, sortLinkPositions, hsort]
  · rw [parseTextWithLinks, parseTextWithLinksFuel, if_neg (by simp), hcollect,
      Option.map_some', hocc, sortLinkPositions, hsort]
  · rfl

/-- The supporting instance evaluated at a concrete input. -/
theorem parse_duplicate_text_links_witness :
    (sortedSpans "xay".toList [⟨"a".toList, "u1".toList⟩, ⟨"a".toList, "u2".toList⟩] =
      some ((occurrencesOf "xay".toList ⟨"a".toList, "u1".toList⟩).flatMap
        (fun p => [p, retag "u2".toList p]))) ∧
    (parseTextWithLinks "xay".toList
        [⟨"a".toList, "u1".toList⟩, ⟨"a".toList, "u2".toList⟩] =
      some (buildSegments "xay".toList 0
        ((occurrencesOf "xay".toList ⟨"a".toList, "u1".toList⟩).flatMap
          (fun p => [p, retag "u2".toList p])))) ∧
    parseTextWithLinks "xay".toList
        [⟨"a".toList, "u1".toList⟩, ⟨"a".toList, "u2".toList⟩] =
      some [Segment.text "x".toList, Segment.link "a".toList "u1".toList,
            Segment.link "a".toList "u2".toList, Segment.text "y".toList] :=
  parse_duplicate_text_links "xay".toList "a".toList "u1".toList "u2".toList (by decide)

/-- C10: when two links (with non-empty texts, possibly different) both
match at the same start index `s` in the description, the sorted span
list contains the two corresponding entries adjacent, ordered by the
links' declaration order, each carrying its own url — and the output
contains, at that position, one link segment per matching link,
adjacent, in declaration order, each with its own `sectionUrl`. -/
theorem parse_same_start_links (d : List Char) (l1 l2 : Link) (s : Nat)
    (h1 : l1.sectionText ≠ []) (h2 : l2.sectionText ≠ [])
    (hm1 : matchesAt d l1.sectionText s = true)
    (hm2 : matchesAt d l2.sectionText s = true) :
    ∃ A B segs C E,
      sortedSpans d [l1, l2] =
        some (A ++
          (⟨s, s + l1.sectionText.length, l1.sectionText, l1.sectionUrl⟩ : LinkPos) ::
          (⟨s, s + l2.sectionText.length, l2.sectionText, l2.sectionUrl⟩ : LinkPos) :: B) ∧
      parseTextWithLinks d [l1, l2] = some segs ∧
      segs = C ++ Segment.link l1.sectionText l1.sectionUrl ::
        Segment.link l2.sectionText l2.sectionUrl :: E := by
  obtain ⟨o1, ho1⟩ := Option.isSome_iff_exists.mp
    (@findOccurrences_isSome d l1 h1 (d.length + 1) 0 (by omega))
  obtain ⟨o2, ho2⟩ := Option.isSome_iff_exists.mp
    (@findOccurrences_isSome d l2 h2 (d.length + 1) 0 (by omega))
  have hmem1 := findOccurrences_complete h1 ho1 s (Nat.zero_le s) hm1
  have hmem2 := findOccurrences_complete h2 ho2 s (Nat.zero_le s) hm2
  have hf1 : o1.filter (fun x => decide (x.start = s)) =
      [⟨s, s + l1.sectionText.length, l1.sectionText, l1.sectionUrl⟩] :=
    filter_start_eq_singleton hmem1 (findOccurrences_sorted h1 ho1)
  have hf2 : o2.filter (fun x => decide (x.start = s)) =
      [⟨s, s + l2.sectionText.length, l2.sectionText, l2.sectionUrl⟩] :=
    filter_start_eq_singleton hmem2 (findOccurrences_sorted h2 ho2)
  have hfL : (sortLinkPositions (o1 ++ o2)).filter (fun x => decide (x.start = s)) =
      [⟨s, s + l1.sectionText.length, l1.sectionText, l1.sectionUrl⟩,
        ⟨s, s + l2.sectionText.length, l2.sectionText, l2.sectionUrl⟩] := by
    rw [sortLinkPositions, filter_start_insertionSort s, List.filter_append, hf1, hf2]
    rfl
  obtain ⟨A, B, hAB⟩ := sorted_filter_pair_adjacent
    (sortLinkPositions_sorted (o1 ++ o2)) hfL
  have hcollect := collectLinkPositions_pair ho1 ho2
  obtain ⟨C0, cur, hC0⟩ := buildSegments_append d A
    ((⟨s, s + l1.sectionText.length, l1.sectionText, l1.sectionUrl⟩ : LinkPos) ::
      (⟨s, s + l2.sectionText.length, l2.sectionText, l2.sectionUrl⟩ : LinkPos) :: B) 0
  have hstop : ¬ (⟨s, s + l1.sectionText.length, l1.sectionText, l1.sectionUrl⟩ :
      LinkPos).stop <
      (⟨s, s + l2.sectionText.length, l2.sectionText, l2.sectionUrl⟩ : LinkPos).start := by
    show ¬ s + l1.sectionText.length < s
    omega
  refine ⟨A, B, buildSegments d 0 (sortLinkPositions (o1 ++ o2)),
    C0 ++ (if cur < s then [Segment.text (slice d cur s)] else []),
    buildSegments d (s + l2.sectionText.length) B, ?_, ?_, ?_⟩
  · rw [sortedSpans, hcollect, Option.map_some', hAB]
  · rw [parseTextWithLinks, parseTextWithLinksFuel, if_neg (by simp), hcollect,
      Option.map_some']
  · rw [hAB, hC0, buildSegments_cons_cons d cur _ _ B hstop]
    simp [List.append_assoc]

/-- Witness for C10 at a concrete input: in the description `"aab"`,
the two distinct links `{"ab", u1}` and `{"a", u2}` both match at start
index 1. -/
theorem parse_same_start_links_witness :
    ∃ A B segs C E,
      sortedSpans "aab".toList
          [⟨"ab".toList, "u1".toList⟩, ⟨"a".toList, "u2".toList⟩] =
        some (A ++ (⟨1, 1 + "ab".toList.length, "ab".toList, "u1".toList⟩ : LinkPos) ::
          (⟨1, 1 + "a".toList.length, "a".toList, "u2".toList⟩ : LinkPos) :: B) ∧
      parseTextWithLinks "aab".toList
          [⟨"ab".toList, "u1".toList⟩, ⟨"a".toList, "u2".toList⟩] = some segs ∧
      segs = C ++ Segment.link "ab".toList "u1".toList ::
        Segment.link "a".toList "u2".toList :: E :=
  parse_same_start_links "aab".toList ⟨"ab".toList, "u1".toList⟩
    ⟨"a".toList, "u2".toList⟩ 1 (by decide) (by decide) (by decide) (by decide)

/-- Witness for C9 at a concrete input. -/
theorem parse_no_empty_text_witness :
    ("xay".toList : List Char) ≠ [] ∧ (Segment.text "x".toList).content ≠ [] :=
  ⟨by decide,
    parse_no_empty_text "xay".toList [⟨"a".toList, "u".toList⟩]
      [Segment.text "x".toList, Segment.link "a".toList "u".toList,
        Segment.text "y".toList]
      (by decide) (by decide) (by decide)
      (Segment.text "x".toList) (by decide) (by decide)⟩

/-- C1 (counterexample): segmentation is not total.  For the description
`"a"` and the single link whose `sectionText` is the empty string, the
occurrence-collecting `while` loop never takes its exit branch
(JavaScript `indexOf` of an empty string never returns `-1`), so no
amount of fuel makes `parseTextWithLinks` finish. -/
theorem parseTextWithLinks_not_total :
    ¬ parseTerminates "a".toList [⟨[], "u".toList⟩] := by
  rintro ⟨fuel, hfuel⟩
  have h0 : findOccurrences ['a'] ⟨[], ['u']⟩ 0 fuel = none :=
    findOccurrences_empty_text "a".toList "u".toList fuel 0
  simp [parseTextWithLinksFuel, collectLinkPositions, h0] at hfuel

/-- C1 (amended): for every description and every list of links whose
`sectionText`s are all non-empty, `parseTextWithLinks` terminates and
returns a segment list (the canonical fuel `d.length + 1` suffices). -/
theorem parseTextWithLinks_total_of_nonempty_sectionTexts
    (d : List Char) (links : List Link) (h : ∀ l ∈ links, l.sectionText ≠ []) :
    (parseTextWithLinks d links).isSome := by
  cases links with
  | nil => rfl
  | cons link rest =>
    obtain ⟨ps, hps⟩ := Option.isSome_iff_exists.mp (collectLinkPositions_isSome (d := d) h)
    simp [parseTextWithLinks, parseTextWithLinksFuel, hps]

/-- Witness for the amended C1 at a concrete input. -/
theorem parseTextWithLinks_total_of_nonempty_sectionTexts_witness :
    (parseTextWithLinks "ab".toList [⟨"a".toList, "u".toList⟩]).isSome :=
  parseTextWithLinks_total_of_nonempty_sectionTexts _ _ (by decide)

/-- C2: the mount effect of `OnboardingView` returns no cleanup and
never stores its `setTimeout` ids, so on unmount nothing is cancelled:
with 3 features, unmounting at time 0 (before any phase fires) leaves
all three timers pending, and their callbacks later mutate
`iconTitleTranslateY`, the feature-trigger flag and `blurViewOpacity`
of the destroyed instance.  This refutes the claim that all pending
delayed work is cancelled on unmount. -/
theorem onboardingUnmount_pending_not_cancelled :
    onboardingMountCleanup 3 = [] ∧
    featureCleanup 2 = [] ∧
    pendingAfterUnmount 3 0 = onboardingMountTimers 3 ∧
    AnimTarget.iconTitleTranslateY ∈ lateWriteTargets 3 0 ∧
    AnimTarget.shouldAnimateFeaturesFlag ∈ lateWriteTargets 3 0 ∧
    AnimTarget.blurViewOpacity ∈ lateWriteTargets 3 0 := by
  decide

/-- C4: under the default constants, feature `i` starts its rise/fade at
`FADE_IN_DURATION + MOVE_UP_DURATION + BUFFER_DELAY + i * STAGGER_DELAY`
after mount; feature 2 starts at 2440 and, with 3 features, the blur
panel starts at `... + 3 * STAGGER_DELAY + BUFFER_DELAY = 3060`.  The
mount-effect timers fire at 600, 1600 and 3060. -/
theorem animation_schedule_times :
    (∀ i, featureStartTime i =
      FADE_IN_DURATION + MOVE_UP_DURATION + BUFFER_DELAY + i * STAGGER_DELAY) ∧
    featureStartTime 2 = 2440 ∧
    blurStartTime 3 = FADE_IN_DURATION + MOVE_UP_DURATION + BUFFER_DELAY +
      3 * STAGGER_DELAY + BUFFER_DELAY ∧
    blurStartTime 3 = 3060 ∧
    (onboardingMountTimers 3).map (fun t => t.delay) = [600, 1600, 3060] := by
  exact ⟨fun i => rfl, rfl, rfl, rfl, rfl⟩

/-- C5: scanning resumes one character past the previous match's start
(witnessed by the overlapping matches of `"aa"` in `"aaa"` at 0 and 1,
which a resume past the match end would miss), and consequently
`parseTextWithLinks "go go go" [{go, u}]` is exactly
`[link(go,u), text(" "), link(go,u), text(" "), link(go,u)]`. -/
theorem parse_repeated_occurrences_go :
    parseTextWithLinks "go go go".toList [⟨"go".toList, "u".toList⟩] =
      some [Segment.link "go".toList "u".toList, Segment.text " ".toList,
            Segment.link "go".toList "u".toList, Segment.text " ".toList,
            Segment.link "go".toList "u".toList] ∧
    findOccurrences "aaa".toList ⟨"aa".toList, "u".toList⟩ 0 4 =
      some [⟨0, 2, "aa".toList, "u".toList⟩, ⟨1, 3, "aa".toList, "u".toList⟩] := by
  decide

/-- C7 (counterexample): for the empty description, adding a link whose
text does not occur changes the output: `parseTextWithLinks("", [l])`
is `[]` (the trailing-text push is guarded by `currentIndex <
description.length`), while `parseTextWithLinks("", [])` is
`[text ""]`. -/
theorem parse_not_found_empty_description_ne :
    parseTextWithLinks "".toList [⟨"a".toList, "u".toList⟩] ≠
      parseTextWithLinks "".toList [] := by
  decide

/-- C7 (amended): `parseTextWithLinks(D, [])` is always `[text D]`; for
a link whose `sectionText` does not occur in `D`, the output with that
single link equals the output with no links whenever `D` is non-empty,
while for the empty description it is the empty segment list. -/
theorem parse_link_not_found (d : List Char) (link : Link)
    (hocc : occursIn link.sectionText d = false) :
    parseTextWithLinks d [] = some [Segment.text d] ∧
    (d ≠ [] → parseTextWithLinks d [link] = parseTextWithLinks d []) ∧
    (d = [] → parseTextWithLinks d [link] = some []) := by
  have h1 : findOccurrences d link 0 (d.length + 1) = some [] :=
    findOccurrences_of_not_occurs hocc d.length 0
  refine ⟨rfl, ?_, ?_⟩
  · intro hd
    have hpos : 0 < d.length := List.length_pos.mpr hd
    simp [parseTextWithLinks, parseTextWithLinksFuel, collectLinkPositions, h1,
      sortLinkPositions, buildSegments, List.insertionSort, hpos]
  · intro hd
    subst hd
    have h1' : findOccurrences [] link 0 1 = some [] := h1
    simp [parseTextWithLinks, parseTextWithLinksFuel, collectLinkPositions, h1',
      sortLinkPositions, buildSegments, List.insertionSort]

/-- Witness for the amended C7 at a concrete input. -/
theorem parse_link_not_found_witness :
    parseTextWithLinks "ab".toList [] = some [Segment.text "ab".toList] ∧
    ("ab".toList ≠ [] →
      parseTextWithLinks "ab".toList [⟨"c".toList, "u".toList⟩] =
        parseTextWithLinks "ab".toList []) ∧
    ("ab".toList = [] →
      parseTextWithLinks "ab".toList [⟨"c".toList, "u".toList⟩] = some []) :=
  parse_link_not_found "ab".toList ⟨"c".toList, "u".toList⟩ (by decide)

/-- C8 (counterexample): for the empty description and a non-empty link
list, the result is the empty segment list, not a single empty text
segment. -/
theorem parse_empty_description_ne_single_text :
    parseTextWithLinks "".toList [⟨"a".toList, "u".toList⟩] = some [] ∧
    parseTextWithLinks "".toList [⟨"a".toList, "u".toList⟩] ≠
      some [Segment.text "".toList] := by
  decide

/-- C8 (amended): for the empty description, the result is a single
empty text segment when the link list is empty, and the empty segment
list otherwise (assuming non-empty `sectionText`s so the call
terminates). -/
theorem parse_empty_description (links : List Link)
    (h : ∀ l ∈ links, l.sectionText ≠ []) :
    parseTextWithLinks [] links =
      some (if links.isEmpty then [Segment.text []] else []) := by
  cases links with
  | nil => rfl
  | cons link rest =>
    have hc := collectLinkPositions_nil_description h
    simp [parseTextWithLinks, parseTextWithLinksFuel, hc, sortLinkPositions,
      buildSegments, List.insertionSort]

/-- Witness for the amended C8 at a concrete input. -/
theorem parse_empty_description_witness :
    parseTextWithLinks [] [⟨"a".toList, "u".toList⟩] =
      some (if ([⟨"a".toList, "u".toList⟩] : List Link).isEmpty then
        [Segment.text []] else []) :=
  parse_empty_description [⟨"a".toList, "u".toList⟩] (by decide)

end Onboarding
